import Mathlib

/-!
Verification of `mapAndValidate` from `src/map-and-validate.ts` of the
`object-mapper` repository.

The TypeScript function iterates over a mapping declaration, resolves each
entry's dotted path against the source object with lodash `_.get` (the
declared `default` standing in when resolution yields `undefined`), applies
an optional caller-supplied transform, assembles the candidate object, and
validates it with a Zod schema's `safeParse`, returning a tagged result
record `{data, isError, errors}`.

JavaScript runtime values are embedded as the inductive `Value`.  A
caller-supplied transform may throw, which we model with `Except Value`:
`.error f` stands for a thrown JavaScript value `f` propagating out of the
call.  The schema is embedded as its one capability, `safeParse`, a total
function from the candidate object to a tagged parse outcome (Zod's
`safeParse` never throws).
-/

namespace ObjectMapper

/-- A JavaScript runtime value: `null`, `undefined`, booleans, numbers
(integral, which is all this development needs), strings, arrays and
plain objects (association lists of string keys, unique in any object a
JavaScript program can build). -/
inductive Value where
  | null
  | undefined
  | bool (b : Bool)
  | num (n : Int)
  | str (s : String)
  | arr (elems : List Value)
  | obj (fields : List (String × Value))

/-- `true` exactly on the `undefined` marker; embeds the JavaScript test
`x === undefined`. -/
def Value.isUndefined : Value → Bool
  | .undefined => true
  | _ => false

/-- An opaque validation issue record, as produced by the validator. -/
abbrev Issue := Value

/-- Split a character stream at `'.'`, accumulating the current segment in
reverse. -/
def splitSegments : List Char → List Char → List String
  | [], acc => [String.mk acc.reverse]
  | c :: rest, acc =>
    if c = '.' then String.mk acc.reverse :: splitSegments rest []
    else splitSegments rest (c :: acc)

/-- Modelled from the spec: the path-resolution capability is external to
the repository (lodash `_.get`); §6 requires dotted paths with nested
object traversal and positional sequence indexing, and §9 sanctions "a
minimal internal splitter over `.`-delimited segments".  `stringToPath`
splits a dotted path descriptor into its segments. -/
def stringToPath (path : String) : List String :=
  splitSegments path.toList []

/-- Read a run of decimal digits into an accumulator; `none` on any
non-digit. -/
def digitsToNat : List Char → Nat → Option Nat
  | [], n => some n
  | c :: rest, n =>
    if c.isDigit then digitsToNat rest (n * 10 + (c.toNat - 48)) else none

/-- A canonical array-index property name (as JavaScript arrays treat
them): a nonempty digit string without a superfluous leading zero. -/
def toIndex (s : String) : Option Nat :=
  match s.toList with
  | [] => none
  | ['0'] => some 0
  | c :: rest => if c = '0' then none else digitsToNat (c :: rest) 0

/-- Own-property read of a JavaScript object: the value under `key`, or
the `undefined` marker when the key is absent. -/
def getField : List (String × Value) → String → Value
  | [], _ => .undefined
  | (k, v) :: rest, key => if k = key then v else getField rest key

/-- One resolution step `object[segment]`: object field access, array
positional indexing when the segment is a numeral, and the `undefined`
marker otherwise (including any read off `null`/`undefined`/primitives,
which lodash `baseGet` short-circuits to `undefined`). -/
def step (v : Value) (seg : String) : Value :=
  match v with
  | .obj fields => getField fields seg
  | .arr elems =>
    match toIndex seg with
    | some i => elems.getD i .undefined
    | none => .undefined
  | _ => .undefined

/-- Modelled from the spec: walk a parsed path through a nested value,
one segment at a time — the resolver capability of §6 without default
substitution (lodash `baseGet`). -/
def baseGet (v : Value) : List String → Value
  | [] => v
  | seg :: rest => baseGet (step v seg) rest

/-- Modelled from the spec: lodash `_.get(obj, path, default)` — resolve
the dotted path and substitute `default` exactly when the resolved value
is the `undefined` marker (§4.1a: "present" follows the resolution
capability's own definition of missing, explicit undefined included). -/
def lodashGet (source : Value) (path : String) (dflt : Value) : Value :=
  let r := baseGet source (stringToPath path)
  if r.isUndefined then dflt else r

/-- A caller-supplied transform: a JavaScript function on values which may
throw (`.error` carries the thrown value). -/
abbrev Transform := Value → Except Value Value

/-- One mapping entry, from `type PathMapping` in the source: a dotted
`path`, an optional `default` (absence is JavaScript `undefined`, hence
the `.undefined` marker), and an optional `transform`. -/
structure PathMapping where
  path : String
  default : Value := Value.undefined
  transform : Option Transform := none

/-- A mapping declaration as the loop sees it: the keys of the mapping
object in iteration order, each with its entry value; `none` stands for a
falsy entry value (the `if (entry)` guard in the source skips it). -/
abbrev Mappings := List (String × Option PathMapping)

/-- The candidate object being assembled, as a JavaScript object:
key/value pairs in insertion order. -/
abbrev Candidate := List (String × Value)

/-- JavaScript property assignment `result[key] = val`: overwrite in
place when the key is present, append otherwise. -/
def setField : Candidate → String → Value → Candidate
  | [], key, v => [(key, v)]
  | (k, w) :: rest, key, v =>
    if k = key then (key, v) :: rest else (k, w) :: setField rest key v

/-- Lines 67–71 of the source for one entry: resolve the path with the
entry's default via `_.get`, then apply the transform when one is
declared.  A throwing transform surfaces as `.error`. -/
def extractEntry (source : Value) (e : PathMapping) : Except Value Value :=
  let val := lodashGet source e.path e.default
  match e.transform with
  | some f => f val
  | none => .ok val

/-- The extraction loop (lines 64–74 of the source): fold over the
mapping's keys in iteration order, skipping falsy entries, storing each
extracted value under the entry's key; a thrown transform fault aborts
the loop and propagates. -/
def buildCandidate (source : Value) : Mappings → Candidate → Except Value Candidate
  | [], acc => .ok acc
  | (_, none) :: rest, acc => buildCandidate source rest acc
  | (key, some e) :: rest, acc =>
    match extractEntry source e with
    | .error f => .error f
    | .ok v => buildCandidate source rest (setField acc key v)

/-- The outcome of Zod's `safeParse` on the candidate: success with the
parsed (possibly coerced) data, or failure with the ordered issue list. -/
inductive SafeParseResult where
  | success (data : Value)
  | failure (issues : List Issue)

/-- The schema, embedded as its single consumed capability
`schema.safeParse : candidate → outcome` (total: `safeParse` never
throws). -/
abbrev Schema := Candidate → SafeParseResult

/-- The result record of `mapAndValidate`, mirroring the TypeScript
return type: `{data, isError, errors}` where the success variant has
`errors: undefined` and the failure variant has `data: undefined`. -/
structure MapResult where
  data : Option Value
  isError : Bool
  errors : Option (List Issue)

/-- `mapAndValidate(obj, mapping, schema)` (lines 47–87 of the source):
build the candidate object from the mapping, validate it with the
schema, and tag the outcome; a transform fault propagates uncaught as
`.error`. -/
def mapAndValidate (source : Value) (mapping : Mappings) (schema : Schema) :
    Except Value MapResult :=
  match buildCandidate source mapping [] with
  | .error f => .error f
  | .ok cand =>
    match schema cand with
    | .success d => .ok ⟨some d, false, none⟩
    | .failure issues => .ok ⟨none, true, some issues⟩

/-! ### Helper lemmas on candidate assembly -/

/-- Reading back a key just assigned yields the assigned value. -/
theorem getField_setField_self (acc : Candidate) (key : String) (v : Value) :
    getField (setField acc key v) key = v := by
  induction acc with
  | nil => simp [setField, getField]
  | cons p rest ih =>
    obtain ⟨k, w⟩ := p
    by_cases hk : k = key
    · simp [setField, hk, getField]
    · simp [setField, hk, getField, ih]

/-- Assignment to one key leaves every other key's value unchanged. -/
theorem getField_setField_ne (acc : Candidate) (key k' : String) (v : Value)
    (hne : k' ≠ key) : getField (setField acc key v) k' = getField acc k' := by
  induction acc with
  | nil =>
    simp only [setField, getField]
    rw [if_neg (Ne.symm hne)]
  | cons p rest ih =>
    obtain ⟨k, w⟩ := p
    by_cases hk : k = key
    · subst hk
      simp [setField, getField, Ne.symm hne]
    · simp [setField, hk, getField, ih]

/-- A key is among the keys after an assignment iff it was there before or
is the assigned key. -/
theorem mem_keys_setField (acc : Candidate) (key k : String) (v : Value) :
    k ∈ (setField acc key v).map Prod.fst ↔ k ∈ acc.map Prod.fst ∨ k = key := by
  induction acc with
  | nil => simp [setField]
  | cons p rest ih =>
    obtain ⟨k₀, w⟩ := p
    by_cases hk : k₀ = key
    · subst hk
      simp [setField]
      tauto
    · simp [setField, hk, ih]
      tauto

/-- Assigning a fresh key appends the pair at the end of the object. -/
theorem setField_not_mem (acc : Candidate) (key : String) (v : Value)
    (h : key ∉ acc.map Prod.fst) : setField acc key v = acc ++ [(key, v)] := by
  induction acc with
  | nil => simp [setField]
  | cons p rest ih =>
    obtain ⟨k, w⟩ := p
    simp only [List.map_cons, List.mem_cons] at h
    push_neg at h
    simp only [setField]
    rw [if_neg (Ne.symm h.1), ih h.2]
    simp

/-- The loop never touches a key that is absent from the remaining
mapping: the final value under such a key is whatever the accumulator
already holds. -/
theorem buildCandidate_getField_not_mem (source : Value) (m : Mappings)
    (key : String) (hkey : key ∉ m.map Prod.fst) :
    ∀ acc cand, buildCandidate source m acc = .ok cand →
      getField cand key = getField acc key := by
  induction m with
  | nil =>
    intro acc cand h
    simp only [buildCandidate] at h
    cases h
    rfl
  | cons p rest ih =>
    obtain ⟨k₀, entry⟩ := p
    simp only [List.map_cons, List.mem_cons] at hkey
    push_neg at hkey
    intro acc cand h
    cases entry with
    | none => exact ih hkey.2 acc cand h
    | some e =>
      simp only [buildCandidate] at h
      cases hx : extractEntry source e with
      | error f => rw [hx] at h; cases h
      | ok v =>
        rw [hx] at h
        rw [ih hkey.2 _ cand h]
        exact getField_setField_ne acc k₀ key v hkey.1

/-- The loop never creates a key that is absent from both the remaining
mapping and the accumulator. -/
theorem buildCandidate_not_mem_keys (source : Value) (m : Mappings)
    (key : String) (hkey : key ∉ m.map Prod.fst) :
    ∀ acc cand, buildCandidate source m acc = .ok cand →
      key ∉ acc.map Prod.fst → key ∉ cand.map Prod.fst := by
  induction m with
  | nil =>
    intro acc cand h hacc
    simp only [buildCandidate] at h
    cases h
    exact hacc
  | cons p rest ih =>
    obtain ⟨k₀, entry⟩ := p
    simp only [List.map_cons, List.mem_cons] at hkey
    push_neg at hkey
    intro acc cand h hacc
    cases entry with
    | none => exact ih hkey.2 acc cand h hacc
    | some e =>
      simp only [buildCandidate] at h
      cases hx : extractEntry source e with
      | error f => rw [hx] at h; cases h
      | ok v =>
        rw [hx] at h
        refine ih hkey.2 _ cand h ?_
        rw [mem_keys_setField]
        push_neg
        exact ⟨hacc, hkey.1⟩

/-- When the mapping's keys are unique, the value the finished candidate
holds under the key of a present entry is exactly that entry's
successfully extracted value. -/
theorem buildCandidate_getField_mem (source : Value) (m : Mappings)
    (key : String) (e : PathMapping) (hmem : (key, some e) ∈ m)
    (hnodup : (m.map Prod.fst).Nodup) :
    ∀ acc cand, buildCandidate source m acc = .ok cand →
      extractEntry source e = .ok (getField cand key) := by
  induction m with
  | nil => cases hmem
  | cons p rest ih =>
    obtain ⟨k₀, entry⟩ := p
    simp only [List.map_cons, List.nodup_cons] at hnodup
    intro acc cand h
    rcases List.mem_cons.mp hmem with heq | hmem'
    · cases heq
      simp only [buildCandidate] at h
      cases hx : extractEntry source e with
      | error f => rw [hx] at h; cases h
      | ok v =>
        rw [hx] at h
        rw [buildCandidate_getField_not_mem source rest key hnodup.1 _ cand h,
          getField_setField_self]
    · cases entry with
      | none => exact ih hmem' hnodup.2 acc cand h
      | some e₀ =>
        simp only [buildCandidate] at h
        cases hx : extractEntry source e₀ with
        | error f => rw [hx] at h; cases h
        | ok v => rw [hx] at h; exact ih hmem' hnodup.2 _ cand h

/-- Skipping a falsy entry is the same as deleting it from the mapping:
the loop body does nothing for it. -/
theorem buildCandidate_skip (source : Value) (pre post : Mappings)
    (key : String) :
    ∀ acc, buildCandidate source (pre ++ (key, none) :: post) acc =
      buildCandidate source (pre ++ post) acc := by
  induction pre with
  | nil => intro acc; rfl
  | cons p rest ih =>
    obtain ⟨k₀, entry⟩ := p
    intro acc
    cases entry with
    | none =>
      simp only [List.cons_append, buildCandidate]
      exact ih acc
    | some e =>
      simp only [List.cons_append, buildCandidate]
      cases extractEntry source e with
      | error f => rfl
      | ok v => exact ih _

/-- Every mapping entry with a present entry object extracts without a
fault on this source: the loop can only abort on a throwing transform. -/
def transformsOk (source : Value) (m : Mappings) : Prop :=
  ∀ p ∈ m, ∀ e : PathMapping, p.2 = some e → ∃ v, extractEntry source e = .ok v

/-- Processing a fault-free prefix of the mapping just advances the
accumulator: the loop then continues on the rest from some intermediate
candidate. -/
theorem buildCandidate_prefix_ok (source : Value) :
    ∀ pre : Mappings, transformsOk source pre →
      ∀ acc, ∃ acc₂, ∀ rest, buildCandidate source (pre ++ rest) acc =
        buildCandidate source rest acc₂ := by
  intro pre
  induction pre with
  | nil => exact fun _ acc => ⟨acc, fun _ => rfl⟩
  | cons p tail ih =>
    obtain ⟨k₀, entry⟩ := p
    intro hok acc
    have hok' : transformsOk source tail :=
      fun q hq => hok q (List.mem_cons_of_mem _ hq)
    cases entry with
    | none =>
      obtain ⟨acc₂, hacc⟩ := ih hok' acc
      refine ⟨acc₂, fun rest => ?_⟩
      simp only [List.cons_append, buildCandidate]
      exact hacc rest
    | some e =>
      obtain ⟨v, hv⟩ := hok (k₀, some e) (List.mem_cons_self _ _) e rfl
      obtain ⟨acc₂, hacc⟩ := ih hok' (setField acc k₀ v)
      refine ⟨acc₂, fun rest => ?_⟩
      simp only [List.cons_append, buildCandidate, hv]
      exact hacc rest

/-- The candidate fields a mapping contributes, read off entry-wise: one
pair per present, successfully extracted entry, in mapping order. -/
def candidateFields (source : Value) (m : Mappings) : Candidate :=
  m.filterMap fun p =>
    p.2.bind fun e =>
      match extractEntry source e with
      | .ok v => some (p.1, v)
      | .error _ => none

theorem candidateFields_cons_none (source : Value) (k : String) (m : Mappings) :
    candidateFields source ((k, none) :: m) = candidateFields source m := rfl

theorem candidateFields_cons_some (source : Value) (k : String) (e : PathMapping)
    (v : Value) (m : Mappings) (hv : extractEntry source e = .ok v) :
    candidateFields source ((k, some e) :: m) =
      (k, v) :: candidateFields source m := by
  simp [candidateFields, List.filterMap_cons, Option.bind, hv]

/-- When the mapping's keys are unique and no transform faults, the loop
computes exactly the accumulator followed by the mapping's candidate
fields in order. -/
theorem buildCandidate_eq_fields (source : Value) :
    ∀ (m : Mappings) (acc : Candidate), transformsOk source m →
      (acc.map Prod.fst ++ m.map Prod.fst).Nodup →
      buildCandidate source m acc = .ok (acc ++ candidateFields source m) := by
  intro m
  induction m with
  | nil =>
    intro acc _ _
    simp [buildCandidate, candidateFields]
  | cons p tail ih =>
    obtain ⟨k₀, entry⟩ := p
    intro acc hok hnd
    have hok' : transformsOk source tail :=
      fun q hq => hok q (List.mem_cons_of_mem _ hq)
    cases entry with
    | none =>
      have hnd' : (acc.map Prod.fst ++ tail.map Prod.fst).Nodup := by
        refine List.Nodup.sublist ?_ hnd
        exact List.Sublist.append_left (List.sublist_cons_self _ _) _
      simp only [buildCandidate, candidateFields_cons_none]
      exact ih acc hok' hnd'
    | some e =>
      obtain ⟨v, hv⟩ := hok (k₀, some e) (List.mem_cons_self _ _) e rfl
      have hk₀ : k₀ ∉ acc.map Prod.fst := by
        rw [List.nodup_append] at hnd
        exact fun hmem => hnd.2.2 hmem (List.mem_cons_self _ _)
      have hnd' : ((setField acc k₀ v).map Prod.fst ++ tail.map Prod.fst).Nodup := by
        rw [setField_not_mem acc k₀ v hk₀]
        simpa using hnd
      simp only [buildCandidate, hv]
      rw [ih (setField acc k₀ v) hok' hnd', setField_not_mem acc k₀ v hk₀,
        candidateFields_cons_some source k₀ e v tail hv]
      simp

/-- With every entry present and fault-free, the candidate fields carry
the mapping's keys, in order, one each. -/
theorem candidateFields_keys (source : Value) :
    ∀ m : Mappings, (∀ p ∈ m, p.2 ≠ none) → transformsOk source m →
      (candidateFields source m).map Prod.fst = m.map Prod.fst := by
  intro m
  induction m with
  | nil => intro _ _; rfl
  | cons p tail ih =>
    obtain ⟨k₀, entry⟩ := p
    intro hpres hok
    cases entry with
    | none => exact absurd rfl (hpres (k₀, none) (List.mem_cons_self _ _))
    | some e =>
      obtain ⟨v, hv⟩ := hok (k₀, some e) (List.mem_cons_self _ _) e rfl
      rw [candidateFields_cons_some source k₀ e v tail hv]
      simp only [List.map_cons]
      rw [ih (fun q hq => hpres q (List.mem_cons_of_mem _ hq))
        (fun q hq => hok q (List.mem_cons_of_mem _ hq))]

/-! ### Concrete values (from the repository's test suite) used as
witness inputs -/

/-- The source object of the first test: `{user: {name: 'Alice', age: 25}}`. -/
def aliceSource : Value :=
  .obj [("user", .obj [("name", .str "Alice"), ("age", .num 25)])]

/-- Mapping entry `{path: 'user.name', default: 'Unknown'}`. -/
def nameEntry : PathMapping :=
  { path := "user.name", default := .str "Unknown" }

/-- Mapping entry `{path: 'user.email', default: 'email@gmail.com'}`. -/
def emailEntry : PathMapping :=
  { path := "user.email", default := .str "email@gmail.com" }

example : stringToPath "user.name" = ["user", "name"] := rfl
example : lodashGet aliceSource "user.name" (.str "Unknown") = .str "Alice" := rfl
example : lodashGet aliceSource "user.email" (.str "e") = .str "e" := rfl
example :
    buildCandidate aliceSource
      [("name", some nameEntry), ("email", some emailEntry)] [] =
    .ok [("name", .str "Alice"), ("email", .str "email@gmail.com")] := rfl

/-! ### Claim theorems -/

/-- C1: for every present mapping entry, the candidate value stored under
its key is `transform(resolve(source, path, default))` when a transform is
declared and `resolve(source, path, default)` otherwise; and when the path
does not resolve, the resolved-or-defaulted value (the transform's
argument) is exactly `entry.default`, so the transform is applied after
default substitution. -/
theorem c1_candidate_value (source : Value) (mapping : Mappings)
    (key : String) (e : PathMapping) (cand : Candidate)
    (hmem : (key, some e) ∈ mapping)
    (hnodup : (mapping.map Prod.fst).Nodup)
    (hok : buildCandidate source mapping [] = .ok cand) :
    (∀ f, e.transform = some f →
        f (lodashGet source e.path e.default) = .ok (getField cand key)) ∧
    (e.transform = none →
        getField cand key = lodashGet source e.path e.default) ∧
    (baseGet source (stringToPath e.path) = Value.undefined →
        lodashGet source e.path e.default = e.default) := by
  have hx := buildCandidate_getField_mem source mapping key e hmem hnodup [] cand hok
  refine ⟨?_, ?_, ?_⟩
  · intro f hf
    simp only [extractEntry, hf] at hx
    exact hx
  · intro hf
    simp only [extractEntry, hf, Except.ok.injEq] at hx
    exact hx.symm
  · intro hbase
    simp [lodashGet, hbase, Value.isUndefined]

/-- Witness for C1, on the first test's data: the `email` path is missing
from the source, so the candidate holds the entry's declared default. -/
theorem c1_candidate_value_witness :
    (∀ f, emailEntry.transform = some f →
        f (lodashGet aliceSource emailEntry.path emailEntry.default) =
          .ok (getField
            [("name", Value.str "Alice"), ("email", Value.str "email@gmail.com")]
            "email")) ∧
    (emailEntry.transform = none →
        getField
            [("name", Value.str "Alice"), ("email", Value.str "email@gmail.com")]
            "email" =
          lodashGet aliceSource emailEntry.path emailEntry.default) ∧
    (baseGet aliceSource (stringToPath emailEntry.path) = Value.undefined →
        lodashGet aliceSource emailEntry.path emailEntry.default =
          emailEntry.default) :=
  c1_candidate_value aliceSource [("name", some nameEntry), ("email", some emailEntry)]
    "email" emailEntry
    [("name", Value.str "Alice"), ("email", Value.str "email@gmail.com")]
    (by simp) (by decide) rfl

/-- C4: a completed invocation yields exactly one of the two variants:
on success `isError` is `false`, `data` is present and `errors` is
`undefined`; on failure `isError` is `true`, `data` is `undefined` and
`errors` is present. -/
theorem c4_result_exactly_one_variant (source : Value) (mapping : Mappings)
    (schema : Schema) (r : MapResult)
    (h : mapAndValidate source mapping schema = .ok r) :
    (r.isError = false ∧ (∃ v, r.data = some v) ∧ r.errors = none) ∨
    (r.isError = true ∧ r.data = none ∧ ∃ issues, r.errors = some issues) := by
  cases hb : buildCandidate source mapping [] with
  | error f =>
    simp only [mapAndValidate, hb] at h
    exact Except.noConfusion h
  | ok cand =>
    cases hs : schema cand with
    | success d =>
      simp only [mapAndValidate, hb, hs, Except.ok.injEq] at h
      subst h
      exact Or.inl ⟨rfl, ⟨d, rfl⟩, rfl⟩
    | failure issues =>
      simp only [mapAndValidate, hb, hs, Except.ok.injEq] at h
      subst h
      exact Or.inr ⟨rfl, rfl, issues, rfl⟩

/-- Witness for C4, with a constant accepting validator on an empty
mapping. -/
theorem c4_result_exactly_one_variant_witness :
    ((false : Bool) = false ∧
      (∃ v, (some Value.null : Option Value) = some v) ∧
      (none : Option (List Issue)) = none) ∨
    ((false : Bool) = true ∧ (some Value.null : Option Value) = none ∧
      ∃ issues, (none : Option (List Issue)) = some issues) :=
  c4_result_exactly_one_variant Value.null [] (fun _ => .success Value.null)
    ⟨some Value.null, false, none⟩ rfl

/-- C5: when the validator rejects the candidate, the failure result
carries the validator's issue list itself — element for element, in
order, nothing discarded or modified. -/
theorem c5_issue_passthrough (source : Value) (mapping : Mappings)
    (schema : Schema) (cand : Candidate) (issues : List Issue)
    (hb : buildCandidate source mapping [] = .ok cand)
    (hr : schema cand = .failure issues) :
    mapAndValidate source mapping schema = .ok ⟨none, true, some issues⟩ := by
  simp only [mapAndValidate, hb, hr]

/-- Witness for C5: a validator rejecting with two issues passes both
through in order. -/
theorem c5_issue_passthrough_witness :
    mapAndValidate Value.null []
        (fun _ => .failure [Value.str "issue1", Value.str "issue2"]) =
      .ok ⟨none, true, some [Value.str "issue1", Value.str "issue2"]⟩ :=
  c5_issue_passthrough Value.null []
    (fun _ => .failure [Value.str "issue1", Value.str "issue2"]) []
    [Value.str "issue1", Value.str "issue2"] rfl rfl

/-- C8: on an empty mapping the assembled candidate object is empty, and
the result is exactly the tagged outcome of validating the empty
object. -/
theorem c8_empty_mapping (source : Value) (schema : Schema) :
    buildCandidate source [] [] = .ok ([] : Candidate) ∧
    mapAndValidate source [] schema =
      (match schema [] with
       | .success d => .ok ⟨some d, false, none⟩
       | .failure issues => .ok ⟨none, true, some issues⟩) :=
  ⟨rfl, rfl⟩

/-- C9: `mapAndValidate` is deterministic — any two invocations on the
same source, mapping and schema produce the same result. -/
theorem c9_deterministic (source : Value) (mapping : Mappings)
    (schema : Schema) (r₁ r₂ : Except Value MapResult)
    (h₁ : mapAndValidate source mapping schema = r₁)
    (h₂ : mapAndValidate source mapping schema = r₂) : r₁ = r₂ := by
  rw [← h₁, ← h₂]

/-- Witness for C9 on the first test's data. -/
theorem c9_deterministic_witness :
    (Except.ok ⟨some Value.null, false, none⟩ : Except Value MapResult) =
      .ok ⟨some Value.null, false, none⟩ :=
  c9_deterministic aliceSource [("name", some nameEntry)]
    (fun _ => .success Value.null) _ _ rfl rfl

/-- C10: the default is substituted only when resolution yields the
`undefined` marker; any other resolved value — `null`, `false`, `0`, the
empty string included — is kept, handed to the transform when one is
declared, and stored otherwise. -/
theorem c10_default_only_when_undefined (source : Value) (e : PathMapping)
    (v : Value) (hres : baseGet source (stringToPath e.path) = v)
    (hv : v ≠ Value.undefined) :
    lodashGet source e.path e.default = v ∧
    (e.transform = none → extractEntry source e = .ok v) ∧
    (∀ f, e.transform = some f → extractEntry source e = f v) := by
  have hisun : v.isUndefined = false := by
    cases v
    case undefined => exact absurd rfl hv
    all_goals rfl
  have hget : lodashGet source e.path e.default = v := by
    simp [lodashGet, hres, hisun]
  refine ⟨hget, ?_, ?_⟩
  · intro hf
    simp only [extractEntry, hf, hget]
  · intro f hf
    simp only [extractEntry, hf, hget]

/-- Mapping entry `{path: 'a', default: 'd'}`, used to witness C10. -/
def nullEntry : PathMapping := { path := "a", default := .str "d" }

/-- Witness for C10: a path resolving to an explicit `null` keeps `null`
rather than taking the declared default. -/
theorem c10_default_only_when_undefined_witness :
    lodashGet (Value.obj [("a", Value.null)]) nullEntry.path nullEntry.default =
        Value.null ∧
    (nullEntry.transform = none →
        extractEntry (Value.obj [("a", Value.null)]) nullEntry = .ok Value.null) ∧
    (∀ f, nullEntry.transform = some f →
        extractEntry (Value.obj [("a", Value.null)]) nullEntry = f Value.null) :=
  c10_default_only_when_undefined (Value.obj [("a", Value.null)]) nullEntry
    Value.null rfl (fun h => Value.noConfusion h)

/-- C3: a declared key with an absent or falsy entry object is skipped
silently: the invocation behaves exactly as if that key were not in the
mapping at all (so nothing is rejected or reported), and the candidate
object carries no field under that key. -/
theorem c3_missing_entry_skipped (source : Value) (pre post : Mappings)
    (key : String) (schema : Schema)
    (hnodup : ((pre ++ (key, none) :: post).map Prod.fst).Nodup) :
    mapAndValidate source (pre ++ (key, none) :: post) schema =
      mapAndValidate source (pre ++ post) schema ∧
    ∀ cand, buildCandidate source (pre ++ (key, none) :: post) [] = .ok cand →
      key ∉ cand.map Prod.fst := by
  constructor
  · simp only [mapAndValidate, buildCandidate_skip]
  · intro cand hc
    rw [buildCandidate_skip] at hc
    have hmid : ((pre.map Prod.fst) ++ key :: (post.map Prod.fst)).Nodup := by
      simpa using hnodup
    rw [List.nodup_middle, List.nodup_cons] at hmid
    have hkey : key ∉ (pre ++ post).map Prod.fst := by
      simpa using hmid.1
    exact buildCandidate_not_mem_keys source (pre ++ post) key hkey [] cand hc
      (by simp)

/-- Witness for C3: a `ghost` key with a falsy entry changes nothing and
leaves no candidate field. -/
theorem c3_missing_entry_skipped_witness :
    mapAndValidate aliceSource
        ([("name", some nameEntry)] ++ ("ghost", none) :: [])
        (fun _ => .success Value.null) =
      mapAndValidate aliceSource ([("name", some nameEntry)] ++ [])
        (fun _ => .success Value.null) ∧
    ∀ cand,
      buildCandidate aliceSource
          ([("name", some nameEntry)] ++ ("ghost", none) :: []) [] = .ok cand →
      "ghost" ∉ cand.map Prod.fst :=
  c3_missing_entry_skipped aliceSource [("name", some nameEntry)] [] "ghost"
    (fun _ => .success Value.null) (by decide)

/-- C7: a throwing transform is not caught: whatever the schema, the
invocation surfaces the thrown value itself as an uncaught fault — no
result record is produced and the validator is never consulted. -/
theorem c7_transform_fault_propagates (source : Value) (pre post : Mappings)
    (key : String) (e : PathMapping) (f : Value)
    (hpre : transformsOk source pre)
    (hfail : extractEntry source e = .error f) :
    ∀ schema : Schema,
      mapAndValidate source (pre ++ (key, some e) :: post) schema = .error f := by
  intro schema
  obtain ⟨acc₂, hacc⟩ := buildCandidate_prefix_ok source pre hpre []
  simp only [mapAndValidate, hacc ((key, some e) :: post), buildCandidate, hfail]

/-- Mapping entry whose transform throws on every input, used to witness
C7. -/
def boomEntry : PathMapping :=
  { path := "a", transform := some fun _ => .error (.str "boom") }

/-- Witness for C7: the thrown value surfaces unmodified even under an
always-accepting validator. -/
theorem c7_transform_fault_propagates_witness :
    mapAndValidate Value.null ([] ++ ("x", some boomEntry) :: [])
        (fun _ => .success Value.null) =
      .error (Value.str "boom") :=
  c7_transform_fault_propagates Value.null [] [] "x" boomEntry (Value.str "boom")
    (fun p hp => absurd hp (List.not_mem_nil p)) rfl
    (fun _ => .success Value.null)

/-- C2: with a well-formed mapping (every key carries an entry object,
keys unique) and fault-free transforms, extraction always completes —
regardless of what the source contains — producing exactly one candidate
value per mapping key, and the whole invocation returns a result record
(missing paths surface only through the candidate's values or the
validator's issues, never as an extraction failure). -/
theorem c2_total_coverage (source : Value) (mapping : Mappings)
    (schema : Schema)
    (hpres : ∀ p ∈ mapping, p.2 ≠ none)
    (hok : transformsOk source mapping)
    (hnodup : (mapping.map Prod.fst).Nodup) :
    ∃ cand, buildCandidate source mapping [] = .ok cand ∧
      cand.map Prod.fst = mapping.map Prod.fst ∧
      ∃ r, mapAndValidate source mapping schema = .ok r := by
  have hb := buildCandidate_eq_fields source mapping [] hok (by simpa using hnodup)
  rw [List.nil_append] at hb
  refine ⟨candidateFields source mapping, hb,
    candidateFields_keys source mapping hpres hok, ?_⟩
  cases hs : schema (candidateFields source mapping) with
  | success d =>
    exact ⟨⟨some d, false, none⟩, by simp only [mapAndValidate, hb, hs]⟩
  | failure issues =>
    exact ⟨⟨none, true, some issues⟩, by simp only [mapAndValidate, hb, hs]⟩

/-- Witness for C2, on the first test's mapping: the `email` path is
missing from the source, yet extraction completes with one candidate per
key. -/
theorem c2_total_coverage_witness :
    ∃ cand,
      buildCandidate aliceSource
          [("name", some nameEntry), ("email", some emailEntry)] [] = .ok cand ∧
      cand.map Prod.fst =
        ([("name", some nameEntry), ("email", some emailEntry)] : Mappings).map
          Prod.fst ∧
      ∃ r, mapAndValidate aliceSource
          [("name", some nameEntry), ("email", some emailEntry)]
          (fun _ => .success Value.null) = .ok r :=
  c2_total_coverage aliceSource
    [("name", some nameEntry), ("email", some emailEntry)]
    (fun _ => .success Value.null)
    (by
      intro p hp
      simp only [List.mem_cons, List.not_mem_nil, or_false] at hp
      rcases hp with rfl | rfl <;> simp)
    (by
      intro p hp e he
      simp only [List.mem_cons, List.not_mem_nil, or_false] at hp
      rcases hp with rfl | rfl
      · injection he with h₁
        subst h₁
        exact ⟨Value.str "Alice", rfl⟩
      · injection he with h₁
        subst h₁
        exact ⟨Value.str "email@gmail.com", rfl⟩)
    (by decide)

/-- C6: with fault-free transforms and a validator insensitive to the
candidate object's key insertion order, permuting the mapping's key/entry
pairs never changes the result of `mapAndValidate`. -/
theorem c6_order_independent (source : Value) (m₁ m₂ : Mappings)
    (schema : Schema)
    (hperm : m₁.Perm m₂)
    (hnodup : (m₁.map Prod.fst).Nodup)
    (hok : transformsOk source m₁)
    (hschema : ∀ c₁ c₂ : Candidate, c₁.Perm c₂ → schema c₁ = schema c₂) :
    mapAndValidate source m₁ schema = mapAndValidate source m₂ schema := by
  have hok₂ : transformsOk source m₂ :=
    fun p hp => hok p (hperm.mem_iff.mpr hp)
  have hnodup₂ : (m₂.map Prod.fst).Nodup :=
    ((hperm.map Prod.fst).nodup_iff).mp hnodup
  have hb₁ := buildCandidate_eq_fields source m₁ [] hok (by simpa using hnodup)
  have hb₂ := buildCandidate_eq_fields source m₂ [] hok₂ (by simpa using hnodup₂)
  rw [List.nil_append] at hb₁ hb₂
  have hfields : (candidateFields source m₁).Perm (candidateFields source m₂) :=
    hperm.filterMap _
  simp only [mapAndValidate, hb₁, hb₂]
  rw [hschema _ _ hfields]

/-- Witness for C6: swapping the two entries of the first test's mapping
leaves the result unchanged. -/
theorem c6_order_independent_witness :
    mapAndValidate aliceSource
        [("name", some nameEntry), ("email", some emailEntry)]
        (fun _ => .success Value.null) =
      mapAndValidate aliceSource
        [("email", some emailEntry), ("name", some nameEntry)]
        (fun _ => .success Value.null) :=
  c6_order_independent aliceSource
    [("name", some nameEntry), ("email", some emailEntry)]
    [("email", some emailEntry), ("name", some nameEntry)]
    (fun _ => .success Value.null)
    (List.Perm.swap ("email", some emailEntry) ("name", some nameEntry) [])
    (by decide)
    (by
      intro p hp e he
      simp only [List.mem_cons, List.not_mem_nil, or_false] at hp
      rcases hp with rfl | rfl
      · injection he with h₁
        subst h₁
        exact ⟨Value.str "Alice", rfl⟩
      · injection he with h₁
        subst h₁
        exact ⟨Value.str "email@gmail.com", rfl⟩)
    (fun _ _ _ => rfl)

end ObjectMapper
